import Mathlib

/-!
Shallow embedding of `home2school.py`.

The program builds a graph of `Location` objects (name, x, y, a list of
connected locations), and a recursive `Walker` that enumerates all simple
paths from a start location to an end location.

Python compares `Location` objects with `==`, which for these classes is
object identity.  We therefore model a location as an object identity
`Loc := Nat`; the attributes (`name`, `x`, `y`) are separate maps from
identities, and the adjacency (`connectedLocations` of each object) is a
map `conn : Loc → List Loc`.  Duplicate edges and self-loops are allowed,
exactly as in the source.
-/

namespace Home2School

/-- A location object identity (Python object identity under `==`). -/
abbrev Loc := Nat

/-- Python's `x in list` membership test on location objects
(`==` is object identity). -/
def pyIn (x : Loc) : List Loc → Bool
  | [] => false
  | y :: ys => if x = y then true else pyIn x ys

/-- `Walker.isVisited`: the walker chain is the current frame's location
followed by the ancestor frames' locations; a location is visited if it
equals the current frame's location, else the question is forwarded to the
previous walker, and the root (no previous walker) answers `False`. -/
def isVisited : List Loc → Loc → Bool
  | [], _ => false
  | cur :: prev, location => if cur = location then true else isVisited prev location

/-- `Path.addLocation`: appends `location` to the sequence; if the sequence
is non-empty, first asserts that `location` is among the connections of the
current last element.  The assertion failure is modelled as `none`. -/
def addLocation (conn : Loc → List Loc) (locs : List Loc) (location : Loc) :
    Option (List Loc) :=
  match locs.getLast? with
  | none => some (locs ++ [location])
  | some lastLocation =>
      if pyIn location (conn lastLocation) then some (locs ++ [location]) else none

/-- The loop in `Walker._fanout` that materializes a `Path`: starting from
`acc`, append each location of `l` in order via `addLocation`. -/
def buildPathFrom (conn : Loc → List Loc) : List Loc → List Loc → Option (List Loc)
  | acc, [] => some acc
  | acc, l :: ls =>
      match addLocation conn acc l with
      | some acc2 => buildPathFrom conn acc2 ls
      | none => none

/-- Materialize a `Path` from an empty sequence by appending every location
of `l` in order, as `Walker._fanout` does with the reversed chain. -/
def buildPath (conn : Loc → List Loc) (l : List Loc) : Option (List Loc) :=
  buildPathFrom conn [] l

/-- The `for connectedLocation in ...` loop of `Walker._fanout`: for each
connection in order, if it is not visited, recurse (`walkNext`) with the
extended chain and append the discovered paths in order. -/
def fanLoop (walkNext : List Loc → Option (List (List Loc))) (chain : List Loc) :
    List Loc → Option (List (List Loc))
  | [] => some []
  | c :: cs =>
      if isVisited chain c then fanLoop walkNext chain cs
      else
        match walkNext (c :: chain), fanLoop walkNext chain cs with
        | some r, some rest => some (r ++ rest)
        | _, _ => none

/-- `Walker._fanout`.  The chain is the current frame's location followed by
the predecessor frames' locations (root last).  If the current location is
the end location, the predecessor chain is reversed and materialized into a
`Path` through `addLocation`; otherwise the walker fans out over the
current location's connections.  `fuel` bounds the recursion depth (the
Python call stack); exhausting it yields `none`. -/
def fanout (conn : Loc → List Loc) (endLocation : Loc) :
    Nat → List Loc → Option (List (List Loc))
  | 0, _ => none
  | _ + 1, [] => some []
  | fuel + 1, cur :: prev =>
      if cur = endLocation then
        match buildPath conn ((cur :: prev).reverse) with
        | some p => some [p]
        | none => none
      else
        fanLoop (fun chain2 => fanout conn endLocation fuel chain2) (cur :: prev) (conn cur)

/-- `Walker.walk`: start a fan-out from the root walker at `startLocation`
with no predecessor. -/
def walk (conn : Loc → List Loc) (startLocation endLocation : Loc) (fuel : Nat) :
    Option (List (List Loc)) :=
  fanout conn endLocation fuel [startLocation]

/-- `Location.distanceTo`: Euclidean distance between the coordinates of
two location objects (coordinate maps `x`, `y`). -/
noncomputable def distanceTo (x y : Loc → ℝ) (a b : Loc) : ℝ :=
  Real.sqrt ((x a - x b) ^ 2 + (y a - y b) ^ 2)

/-- `Path.getDistance`: the loop `for i in range(len(locations) - 1)`
accumulating `locations[i].distanceTo(locations[i+1])`. -/
noncomputable def getDistance (x y : Loc → ℝ) (locs : List Loc) : ℝ :=
  ∑ i in Finset.range (locs.length - 1), distanceTo x y (locs.getD i 0) (locs.getD (i + 1) 0)

/-- Specification-side restatement for the refinement claim about
`getDistance`: the sum of `distanceTo` over every consecutive pair of the
sequence ("returns the sum of `distanceTo` over every consecutive pair"). -/
noncomputable def sumConsecutive (x y : Loc → ℝ) : List Loc → ℝ
  | a :: b :: rest => distanceTo x y a b + sumConsecutive x y (b :: rest)
  | _ => 0

/-- Every consecutive pair `(a, b)` of the sequence has `b` among the
connections of `a` (using the program's own membership test). -/
def consecutiveConnected (conn : Loc → List Loc) : List Loc → Bool
  | a :: b :: rest => pyIn b (conn a) && consecutiveConnected conn (b :: rest)
  | _ => true

/-- Reachability along connection edges. -/
inductive Reachable (conn : Loc → List Loc) : Loc → Loc → Prop
  | refl (a : Loc) : Reachable conn a a
  | step {a b c : Loc} : b ∈ conn a → Reachable conn b c → Reachable conn a c

/-! ### The concrete graph built by `main`

Object identities: Home = 0, Shop = 1, Park = 2, Library = 3, School = 4. -/

/-- The adjacency wired in `main`: Home→Shop, Home→Park, Home→Library,
Shop→Park, Park→School, Park→Home, Park→Library, Library→Park,
Library→School. -/
def demoConn : Loc → List Loc
  | 0 => [1, 2, 3]
  | 1 => [2]
  | 2 => [4, 0, 3]
  | 3 => [2, 4]
  | _ => []

/-- The six simple paths from Home (0) to School (4) that the walker
discovers on the demo graph, in discovery order. -/
def demoPaths : List (List Loc) :=
  [[0, 1, 2, 4], [0, 1, 2, 3, 4], [0, 2, 4], [0, 2, 3, 4], [0, 3, 2, 4], [0, 3, 4]]

/-- The five paths the specification lists for the demo graph. -/
def specListedPaths : List (List Loc) :=
  [[0, 2, 4], [0, 3, 4], [0, 2, 3, 4], [0, 1, 2, 4], [0, 1, 2, 3, 4]]

/-! ### Basic lemmas about the membership and visitation tests -/

theorem pyIn_iff (x : Loc) (l : List Loc) : pyIn x l = true ↔ x ∈ l := by
  induction l with
  | nil => simp [pyIn]
  | cons y ys ih => by_cases h : x = y <;> simp [pyIn, h, ih]

theorem isVisited_iff (chain : List Loc) (location : Loc) :
    isVisited chain location = true ↔ location ∈ chain := by
  induction chain with
  | nil => simp [isVisited]
  | cons cur prev ih =>
    by_cases h : cur = location
    · simp [isVisited, h]
    · simp [isVisited, h, ih, Ne.symm h]

theorem isVisited_false_iff (chain : List Loc) (location : Loc) :
    isVisited chain location = false ↔ location ∉ chain := by
  rw [Bool.eq_false_iff, Ne, isVisited_iff]

/-! ### Lemmas about `consecutiveConnected` and path materialization -/

theorem consecutiveConnected_snoc (conn : Loc → List Loc) :
    ∀ (l : List Loc) (a c : Loc), consecutiveConnected conn l = true →
      l.getLast? = some a → c ∈ conn a →
      consecutiveConnected conn (l ++ [c]) = true := by
  intro l
  induction l with
  | nil => intro a c _ hlast _; simp at hlast
  | cons x xs ih =>
    intro a c hl hlast hc
    cases xs with
    | nil =>
      simp at hlast
      subst hlast
      simp [consecutiveConnected, pyIn_iff, hc]
    | cons y ys =>
      simp only [consecutiveConnected, Bool.and_eq_true] at hl
      have hlast' : (y :: ys).getLast? = some a := by
        simpa [List.getLast?_cons_cons] using hlast
      have htail := ih a c hl.2 hlast' hc
      simp only [List.cons_append, consecutiveConnected, Bool.and_eq_true]
      exact ⟨hl.1, by simpa [List.cons_append] using htail⟩

theorem buildPathFrom_ok (conn : Loc → List Loc) :
    ∀ (xs acc : List Loc) (a : Loc), acc.getLast? = some a →
      consecutiveConnected conn (a :: xs) = true →
      buildPathFrom conn acc xs = some (acc ++ xs) := by
  intro xs
  induction xs with
  | nil => intro acc a _ _; simp [buildPathFrom]
  | cons x xs ih =>
    intro acc a hlast hcc
    simp only [consecutiveConnected, Bool.and_eq_true] at hcc
    have hadd : addLocation conn acc x = some (acc ++ [x]) := by
      simp [addLocation, hlast, hcc.1]
    have hrec := ih (acc ++ [x]) x (by simp) hcc.2
    simp [buildPathFrom, hadd, hrec]

theorem buildPath_ok (conn : Loc → List Loc) (l : List Loc)
    (h : consecutiveConnected conn l = true) : buildPath conn l = some l := by
  cases l with
  | nil => rfl
  | cons x xs =>
    have hadd : addLocation conn [] x = some [x] := rfl
    have hrec := buildPathFrom_ok conn xs [x] x (by simp) h
    simp [buildPath, buildPathFrom, hadd, hrec]

/-! ### Lemmas about the fan-out loop -/

theorem fanLoop_isSome (walkNext : List Loc → Option (List (List Loc))) (chain : List Loc) :
    ∀ cs : List Loc,
      (∀ c ∈ cs, isVisited chain c = false → (walkNext (c :: chain)).isSome) →
      (fanLoop walkNext chain cs).isSome := by
  intro cs
  induction cs with
  | nil => intro _; simp [fanLoop]
  | cons c cs ih =>
    intro h
    have htail := ih fun d hd => h d (List.mem_cons_of_mem _ hd)
    by_cases hv : isVisited chain c = true
    · simpa [fanLoop, hv] using htail
    · have hv' : isVisited chain c = false := by
        rwa [Bool.eq_false_iff]
      have hhead := h c (List.mem_cons_self _ _) hv'
      obtain ⟨r, hr⟩ := Option.isSome_iff_exists.mp hhead
      obtain ⟨rest, hrest⟩ := Option.isSome_iff_exists.mp htail
      simp [fanLoop, hv', hr, hrest]

theorem fanLoop_mem (walkNext : List Loc → Option (List (List Loc))) (chain : List Loc) :
    ∀ (cs : List Loc) (res : List (List Loc)),
      fanLoop walkNext chain cs = some res →
      ∀ p ∈ res, ∃ c ∈ cs, isVisited chain c = false ∧
        ∃ r, walkNext (c :: chain) = some r ∧ p ∈ r := by
  intro cs
  induction cs with
  | nil =>
    intro res h p hp
    simp [fanLoop] at h
    subst h
    simp at hp
  | cons c cs ih =>
    intro res h p hp
    by_cases hv : isVisited chain c = true
    · simp only [fanLoop, hv, if_true] at h
      obtain ⟨d, hd, hrest⟩ := ih res h p hp
      exact ⟨d, List.mem_cons_of_mem _ hd, hrest⟩
    · have hv' : isVisited chain c = false := by rwa [Bool.eq_false_iff]
      simp only [fanLoop, hv', Bool.false_eq_true, if_false] at h
      cases hr : walkNext (c :: chain) with
      | none => rw [hr] at h; simp at h
      | some r =>
        cases hrest : fanLoop walkNext chain cs with
        | none => rw [hr, hrest] at h; simp at h
        | some rest =>
          rw [hr, hrest] at h
          simp only [Option.some.injEq] at h
          subst h
          rcases List.mem_append.mp hp with hpr | hpm
          · exact ⟨c, List.mem_cons_self _ _, hv', r, hr, hpr⟩
          · obtain ⟨d, hd, h2⟩ := ih rest hrest p hpm
            exact ⟨d, List.mem_cons_of_mem _ hd, h2⟩

theorem fanLoop_mono (wn wn' : List Loc → Option (List (List Loc))) (chain : List Loc)
    (hmono : ∀ ch r, wn ch = some r → wn' ch = some r) :
    ∀ (cs : List Loc) (res : List (List Loc)),
      fanLoop wn chain cs = some res → fanLoop wn' chain cs = some res := by
  intro cs
  induction cs with
  | nil => intro res h; simpa [fanLoop] using h
  | cons c cs ih =>
    intro res h
    by_cases hv : isVisited chain c = true
    · simp only [fanLoop, hv, if_true] at h ⊢
      exact ih res h
    · have hv' : isVisited chain c = false := by rwa [Bool.eq_false_iff]
      simp only [fanLoop, hv', Bool.false_eq_true, if_false] at h ⊢
      cases hr : wn (c :: chain) with
      | none => rw [hr] at h; simp at h
      | some r =>
        cases hrest : fanLoop wn chain cs with
        | none => rw [hr, hrest] at h; simp at h
        | some rest =>
          rw [hr, hrest] at h
          rw [hmono _ _ hr, ih rest hrest]
          exact h

/-! ### The main invariants of the fan-out recursion -/

theorem fanout_sound (conn : Loc → List Loc) (e : Loc) :
    ∀ (fuel : Nat) (chain : List Loc) (res : List (List Loc)),
      chain ≠ [] → chain.Nodup →
      consecutiveConnected conn chain.reverse = true →
      fanout conn e fuel chain = some res →
      ∀ p ∈ res, ∃ ext : List Loc,
        p = (ext ++ chain).reverse ∧ (ext ++ chain).Nodup ∧
        consecutiveConnected conn p = true ∧ (ext ++ chain).head? = some e := by
  intro fuel
  induction fuel with
  | zero => intro chain res _ _ _ h; simp [fanout] at h
  | succ fuel ih =>
    intro chain res hne hnd hcc h p hp
    cases chain with
    | nil => exact absurd rfl hne
    | cons cur prev =>
      by_cases hcur : cur = e
      · subst hcur
        simp only [fanout, if_pos] at h
        rw [buildPath_ok conn ((cur :: prev).reverse) hcc] at h
        simp only [Option.some.injEq] at h
        subst h
        simp only [List.mem_singleton] at hp
        subst hp
        exact ⟨[], by simp, by simpa using hnd, by simpa using hcc, by simp⟩
      · simp only [fanout] at h
        rw [if_neg hcur] at h
        obtain ⟨c, hcmem, hcv, r, hr, hpr⟩ := fanLoop_mem _ _ _ res h p hp
        have hcnot : c ∉ cur :: prev := (isVisited_false_iff _ _).mp hcv
        have hnd' : (c :: cur :: prev).Nodup := List.nodup_cons.mpr ⟨hcnot, hnd⟩
        have hcc' : consecutiveConnected conn (c :: cur :: prev).reverse = true := by
          rw [List.reverse_cons]
          exact consecutiveConnected_snoc conn ((cur :: prev).reverse) cur c hcc
            (by simp) hcmem
        obtain ⟨ext, hpe, hnd2, hcc2, hhead⟩ :=
          ih (c :: cur :: prev) r (by simp) hnd' hcc' hr p hpr
        refine ⟨ext ++ [c], ?_, ?_, hcc2, ?_⟩
        · simpa [List.append_assoc] using hpe
        · simpa [List.append_assoc] using hnd2
        · simpa [List.append_assoc] using hhead

theorem fanout_isSome (conn : Loc → List Loc) (V : Finset Loc) (e : Loc)
    (hV : ∀ v ∈ V, ∀ c ∈ conn v, c ∈ V) :
    ∀ (fuel : Nat) (chain : List Loc),
      chain ≠ [] → chain.Nodup → (∀ v ∈ chain, v ∈ V) →
      consecutiveConnected conn chain.reverse = true →
      V.card < fuel + chain.length →
      (fanout conn e fuel chain).isSome := by
  intro fuel
  induction fuel with
  | zero =>
    intro chain _ hnd hsub _ hcard
    exfalso
    have hsub' : chain.toFinset ⊆ V := fun v hv => hsub v (List.mem_toFinset.mp hv)
    have h1 : chain.length ≤ V.card := by
      have h2 := Finset.card_le_card hsub'
      rwa [List.toFinset_card_of_nodup hnd] at h2
    omega
  | succ fuel ih =>
    intro chain hne hnd hsub hcc hcard
    cases chain with
    | nil => exact absurd rfl hne
    | cons cur prev =>
      by_cases hcur : cur = e
      · subst hcur
        simp only [fanout, if_pos]
        rw [buildPath_ok conn ((cur :: prev).reverse) hcc]
        rfl
      · simp only [fanout]
        rw [if_neg hcur]
        apply fanLoop_isSome
        intro c hcmem hcv
        have hcnot : c ∉ cur :: prev := (isVisited_false_iff _ _).mp hcv
        have hnd' : (c :: cur :: prev).Nodup := List.nodup_cons.mpr ⟨hcnot, hnd⟩
        have hsub2 : ∀ v ∈ c :: cur :: prev, v ∈ V := by
          intro v hv
          rcases List.mem_cons.mp hv with rfl | hv'
          · exact hV cur (hsub cur (List.mem_cons_self _ _)) v hcmem
          · exact hsub v hv'
        have hcc' : consecutiveConnected conn (c :: cur :: prev).reverse = true := by
          rw [List.reverse_cons]
          exact consecutiveConnected_snoc conn ((cur :: prev).reverse) cur c hcc
            (by simp) hcmem
        have hcard' : V.card < fuel + (c :: cur :: prev).length := by
          simp only [List.length_cons] at hcard ⊢
          omega
        exact ih (c :: cur :: prev) (by simp) hnd' hsub2 hcc' hcard'

theorem fanout_mono (conn : Loc → List Loc) (e : Loc) :
    ∀ (fuel fuel' : Nat) (chain : List Loc) (res : List (List Loc)), fuel ≤ fuel' →
      fanout conn e fuel chain = some res → fanout conn e fuel' chain = some res := by
  intro fuel
  induction fuel with
  | zero => intro fuel' chain res _ h; simp [fanout] at h
  | succ fuel ih =>
    intro fuel' chain res hle h
    obtain ⟨fuel2, rfl⟩ : ∃ f, fuel' = f + 1 := ⟨fuel' - 1, by omega⟩
    have hle2 : fuel ≤ fuel2 := by omega
    cases chain with
    | nil =>
      simp only [fanout] at h ⊢
      exact h
    | cons cur prev =>
      by_cases hcur : cur = e
      · subst hcur
        simp only [fanout, if_pos] at h ⊢
        exact h
      · simp only [fanout] at h ⊢
        rw [if_neg hcur] at h ⊢
        exact fanLoop_mono _ _ _ (fun ch r hr => ih fuel2 ch r hle2 hr) _ res h

/-! ### Walk-level helper lemmas -/

theorem walk_sound_aux (conn : Loc → List Loc) (s e : Loc) (fuel : Nat)
    (res : List (List Loc)) (h : walk conn s e fuel = some res) :
    ∀ p ∈ res, p.head? = some s ∧ p.getLast? = some e ∧ p.Nodup ∧
      consecutiveConnected conn p = true := by
  intro p hp
  obtain ⟨ext, hpe, hnd, hcc, hhead⟩ :=
    fanout_sound conn e fuel [s] res (by simp) (by simp) rfl h p hp
  subst hpe
  refine ⟨?_, ?_, ?_, hcc⟩
  · rw [List.head?_reverse]
    simp
  · rw [List.getLast?_reverse]
    exact hhead
  · exact List.nodup_reverse.mpr hnd

theorem walk_isSome_aux (conn : Loc → List Loc) (V : Finset Loc) (s e : Loc)
    (hV : ∀ v ∈ V, ∀ c ∈ conn v, c ∈ V) (hs : s ∈ V) :
    (walk conn s e (V.card + 1)).isSome = true :=
  fanout_isSome conn V e hV (V.card + 1) [s] (by simp) (by simp)
    (by intro v hv; rw [List.mem_singleton] at hv; subst hv; exact hs) rfl
    (by simp only [List.length_singleton]; omega)

theorem getDistance_cons (x y : Loc → ℝ) (a b : Loc) (rest : List Loc) :
    getDistance x y (a :: b :: rest) = distanceTo x y a b + getDistance x y (b :: rest) := by
  simp only [getDistance, List.length_cons, Nat.add_sub_cancel]
  rw [Finset.sum_range_succ']
  simp only [List.getD_cons_succ, List.getD_cons_zero]
  ring

theorem reachable_of_chain (conn : Loc → List Loc) :
    ∀ (p : List Loc) (s e : Loc), consecutiveConnected conn p = true →
      p.head? = some s → p.getLast? = some e → Reachable conn s e := by
  intro p
  induction p with
  | nil => intro s e _ hh _; simp at hh
  | cons a rest ih =>
    intro s e hcc hh hl
    have has : a = s := by simpa using hh
    subst has
    cases rest with
    | nil =>
      have hae : a = e := by simpa using hl
      subst hae
      exact Reachable.refl a
    | cons b rest' =>
      simp only [consecutiveConnected, Bool.and_eq_true] at hcc
      have hb : b ∈ conn a := (pyIn_iff _ _).mp hcc.1
      have hrec := ih b e hcc.2 (by simp) (by simpa [List.getLast?_cons_cons] using hl)
      exact Reachable.step hb hrec

/-! ### Claim theorems -/

/-- C1 (counterexample): on the concrete graph of `main`, `walk` from Home (0)
to School (4) returns six simple paths, among them
[Home, Library, Park, School] = [0, 3, 2, 4], which is not one of the five
paths the specification lists — so the claimed five-path collection is not
exhaustive. -/
theorem walk_demo_contains_unlisted_path :
    walk demoConn 0 4 6 = some demoPaths ∧ demoPaths.length = 6 ∧
      [0, 3, 2, 4] ∈ demoPaths ∧ [0, 3, 2, 4] ∉ specListedPaths := by decide

/-- C1 (amended): on the concrete graph of `main`, `walk` from Home (0) to
School (4) returns exactly the six simple paths [Home,Park,School],
[Home,Library,School], [Home,Park,Library,School], [Home,Shop,Park,School],
[Home,Shop,Park,Library,School] and [Home,Library,Park,School], for every
sufficient recursion budget. -/
theorem walk_demo_exact_six (fuel : Nat) (h : 6 ≤ fuel) :
    walk demoConn 0 4 fuel = some demoPaths :=
  fanout_mono demoConn 4 6 fuel [0] demoPaths h (by decide)

/-- Witness for `walk_demo_exact_six` at fuel 6. -/
theorem walk_demo_exact_six_witness : walk demoConn 0 4 6 = some demoPaths :=
  walk_demo_exact_six 6 (by decide)

/-- C2: every path in the collection returned by `walk` from `s` to `e`
begins at `s`, ends at `e`, contains no repeated location, and every
consecutive pair `(a, b)` in it has `b` among the connections of `a`. -/
theorem walk_paths_valid (conn : Loc → List Loc) (s e : Loc) (fuel : Nat)
    (res : List (List Loc)) (h : walk conn s e fuel = some res) :
    ∀ p ∈ res, p.head? = some s ∧ p.getLast? = some e ∧ p.Nodup ∧
      consecutiveConnected conn p = true :=
  walk_sound_aux conn s e fuel res h

/-- Witness for `walk_paths_valid` on the demo graph and the path
[Home, Park, School]. -/
theorem walk_paths_valid_witness :
    ([0, 2, 4] : List Loc).head? = some 0 ∧ ([0, 2, 4] : List Loc).getLast? = some 4 ∧
      ([0, 2, 4] : List Loc).Nodup ∧ consecutiveConnected demoConn [0, 2, 4] = true :=
  walk_paths_valid demoConn 0 4 6 demoPaths (by decide) [0, 2, 4] (by decide)

/-- C3: for every graph (any connections of `s` included, self-loops and
cycles allowed) a walk from `s` to `s` returns exactly the one trivial path
`[s]`, whose distance is 0; the result does not depend on the connections
of `s` at all, since the theorem holds for every adjacency map `conn`. -/
theorem walk_self_trivial (conn : Loc → List Loc) (x y : Loc → ℝ) (s : Loc) (fuel : Nat) :
    walk conn s s (fuel + 1) = some [[s]] ∧ getDistance x y [s] = 0 := by
  constructor
  · show fanout conn s (fuel + 1) [s] = some [[s]]
    have hb : buildPath conn ([s].reverse) = some [s] := by
      rw [List.reverse_singleton]
      exact buildPath_ok conn [s] rfl
    simp only [fanout, if_pos, hb]
  · simp [getDistance]

/-- C4: if `e` is not reachable from `s` along connection edges, the walk
(run with its sufficient recursion budget) returns `some []`: an empty
collection rather than an error. -/
theorem walk_unreachable_empty (conn : Loc → List Loc) (V : Finset Loc) (s e : Loc)
    (hV : ∀ v ∈ V, ∀ c ∈ conn v, c ∈ V) (hs : s ∈ V)
    (hur : ¬ Reachable conn s e) :
    walk conn s e (V.card + 1) = some [] := by
  have hsome := walk_isSome_aux conn V s e hV hs
  obtain ⟨res, hres⟩ := Option.isSome_iff_exists.mp hsome
  have hnil : res = [] := by
    by_contra hne
    obtain ⟨p, hp⟩ := List.exists_mem_of_ne_nil res hne
    obtain ⟨hh, hl, _, hcc⟩ := walk_sound_aux conn s e (V.card + 1) res hres p hp
    exact hur (reachable_of_chain conn p s e hcc hh hl)
  rw [hres, hnil]

/-- Witness for `walk_unreachable_empty` on the edgeless one-vertex graph. -/
theorem walk_unreachable_empty_witness :
    walk (fun _ => []) 0 1 (({0} : Finset Loc).card + 1) = some [] :=
  walk_unreachable_empty (fun _ => []) {0} 0 1 (by intro v _ c hc; simp at hc)
    (by simp)
    (by intro h
        cases h with
        | step hb _ => simp at hb)

/-- C5: `Path.addLocation` fails (assertion, modelled as `none`) exactly when
the sequence is non-empty and the new location is not among the connections
of the current last element; an empty sequence accepts any location, and on
success the location is appended at the end. -/
theorem addLocation_spec (conn : Loc → List Loc) (locs : List Loc) (location : Loc) :
    (locs = [] → addLocation conn locs location = some (locs ++ [location])) ∧
      ∀ lastLocation, locs.getLast? = some lastLocation →
        (location ∈ conn lastLocation →
          addLocation conn locs location = some (locs ++ [location])) ∧
        (location ∉ conn lastLocation → addLocation conn locs location = none) := by
  constructor
  · intro h
    subst h
    rfl
  · intro lastLocation hlast
    constructor
    · intro hmem
      simp [addLocation, hlast, (pyIn_iff location (conn lastLocation)).mpr hmem]
    · intro hmem
      have hfalse : pyIn location (conn lastLocation) = false := by
        rw [Bool.eq_false_iff]
        intro hc
        exact hmem ((pyIn_iff _ _).mp hc)
      simp [addLocation, hlast, hfalse]

/-- Witness for `addLocation_spec` on the demo graph: appending Park (2) to
[Home] succeeds (Park is connected to Home), appending School (4) fails. -/
theorem addLocation_spec_witness :
    addLocation demoConn [0] 2 = some [0, 2] ∧ addLocation demoConn [0] 4 = none :=
  ⟨((addLocation_spec demoConn [0] 2).2 0 (by decide)).1 (by decide),
   ((addLocation_spec demoConn [0] 4).2 0 (by decide)).2 (by decide)⟩

/-- C6: the connectivity assertion in `Path.addLocation` never fires during a
walk: every path the walker materializes is built from locations that are
pairwise adjacent along the traversed chain, so re-running the
materialization on any returned path takes only the success branch. -/
theorem walk_assertion_never_fires (conn : Loc → List Loc) (s e : Loc) (fuel : Nat)
    (res : List (List Loc)) (h : walk conn s e fuel = some res) :
    ∀ p ∈ res, buildPath conn p = some p := by
  intro p hp
  obtain ⟨_, _, _, hcc⟩ := walk_sound_aux conn s e fuel res h p hp
  exact buildPath_ok conn p hcc

/-- Witness for `walk_assertion_never_fires` on the demo graph. -/
theorem walk_assertion_never_fires_witness :
    buildPath demoConn [0, 2, 4] = some [0, 2, 4] :=
  walk_assertion_never_fires demoConn 0 4 6 demoPaths (by decide) [0, 2, 4] (by decide)

/-- C7: `Path.getDistance` equals the sum of `distanceTo` over every
consecutive pair of the sequence, and equals 0 on sequences of length 0
or 1. -/
theorem getDistance_spec (x y : Loc → ℝ) (locs : List Loc) :
    getDistance x y locs = sumConsecutive x y locs ∧
      (locs.length ≤ 1 → getDistance x y locs = 0) := by
  constructor
  · induction locs with
    | nil => simp [getDistance, sumConsecutive]
    | cons a rest ih =>
      cases rest with
      | nil => simp [getDistance, sumConsecutive]
      | cons b rest' =>
        rw [getDistance_cons, ih]
        simp [sumConsecutive]
  · intro hlen
    cases locs with
    | nil => simp [getDistance]
    | cons a rest =>
      cases rest with
      | nil => simp [getDistance]
      | cons b rest' =>
        simp only [List.length_cons] at hlen
        omega

/-- Witness for `getDistance_spec` on the one-element sequence [Home]. -/
theorem getDistance_spec_witness :
    getDistance (fun _ => (0 : ℝ)) (fun _ => 0) [0] =
      sumConsecutive (fun _ => (0 : ℝ)) (fun _ => 0) [0] ∧
      getDistance (fun _ => (0 : ℝ)) (fun _ => 0) [0] = 0 :=
  ⟨(getDistance_spec (fun _ => 0) (fun _ => 0) [0]).1,
   (getDistance_spec (fun _ => 0) (fun _ => 0) [0]).2 (by decide)⟩

/-- C8: on a finite graph whose vertex set `V` is closed under the
connection relation, a walk from `s ∈ V` completes within recursion depth
`V.card + 1`: the fuelled fan-out does not exhaust its budget, because the
chain of distinct visited locations bounds the recursion depth by the
number of distinct locations. -/
theorem walk_terminates (conn : Loc → List Loc) (V : Finset Loc) (s e : Loc)
    (hV : ∀ v ∈ V, ∀ c ∈ conn v, c ∈ V) (hs : s ∈ V) :
    (walk conn s e (V.card + 1)).isSome = true :=
  walk_isSome_aux conn V s e hV hs

/-- Witness for `walk_terminates` on the demo graph. -/
theorem walk_terminates_witness :
    (walk demoConn 0 4 (({0, 1, 2, 3, 4} : Finset Loc).card + 1)).isSome = true :=
  walk_terminates demoConn {0, 1, 2, 3, 4} 0 4 (by decide) (by decide)

/-- C9: `walk` is deterministic and effect-free on the graph: in this pure
embedding the adjacency map is never modified, and two runs with any two
sufficient recursion budgets return the same path collection (in
particular, equal as multisets of location sequences). -/
theorem walk_idempotent (conn : Loc → List Loc) (V : Finset Loc) (s e : Loc)
    (hV : ∀ v ∈ V, ∀ c ∈ conn v, c ∈ V) (hs : s ∈ V)
    (fuel₁ fuel₂ : Nat) (h1 : V.card + 1 ≤ fuel₁) (h2 : V.card + 1 ≤ fuel₂) :
    walk conn s e fuel₁ = walk conn s e fuel₂ := by
  have hsome := walk_isSome_aux conn V s e hV hs
  obtain ⟨res, hres⟩ := Option.isSome_iff_exists.mp hsome
  have e1 : walk conn s e fuel₁ = some res :=
    fanout_mono conn e (V.card + 1) fuel₁ [s] res h1 hres
  have e2 : walk conn s e fuel₂ = some res :=
    fanout_mono conn e (V.card + 1) fuel₂ [s] res h2 hres
  rw [e1, e2]

/-- Witness for `walk_idempotent` on the demo graph at budgets 6 and 7. -/
theorem walk_idempotent_witness : walk demoConn 0 4 6 = walk demoConn 0 4 7 :=
  walk_idempotent demoConn {0, 1, 2, 3, 4} 0 4 (by decide) (by decide) 6 7
    (by decide) (by decide)

/-! ### Two distinct location objects with identical attributes

Objects 1 and 2 both carry the name "School" and the coordinates (30, 20),
but are distinct object identities; 0 is connected to 1, and 1 to 2. -/

/-- Adjacency of the twin-attribute graph: 0 → 1 → 2. -/
def twinConn : Loc → List Loc
  | 0 => [1]
  | 1 => [2]
  | _ => []

/-- Names of the twin-attribute graph: objects 1 and 2 are both "School". -/
def twinName : Loc → String
  | 0 => "Home"
  | _ => "School"

/-- X coordinates of the twin-attribute graph: objects 1 and 2 share x = 30. -/
def twinX : Loc → ℝ
  | 0 => 10
  | _ => 30

/-- Y coordinates of the twin-attribute graph: objects 1 and 2 share y = 20. -/
def twinY : Loc → ℝ
  | 0 => 10
  | _ => 20

/-- C10: location identity in traversal is object identity, not attribute
equality: objects 1 and 2 have identical name and coordinates yet are
distinct identities; a walker frame at 1 (chain [1, 0]) reports 2 as not
visited, and a walk from 0 to end location 2 traverses through 1 — it does
not terminate there, producing the full path [0, 1, 2]. -/
theorem walker_identity_semantics :
    twinName 1 = twinName 2 ∧ twinX 1 = twinX 2 ∧ twinY 1 = twinY 2 ∧
      (1 : Loc) ≠ 2 ∧ isVisited [1, 0] 2 = false ∧
      walk twinConn 0 2 3 = some [[0, 1, 2]] :=
  ⟨rfl, rfl, rfl, by decide, by decide, by decide⟩

end Home2School
